import Mathlib

/-!
Verification development for the personal-assistant trend-matching core:
a shallow embedding of `src/monitor/pumpfun.py` (the match engine),
`src/database/trends_db.py` (the trend store) and
`src/database/coin_performance_db.py` (the performance ledger),
with theorems settling the frozen behavioural claims.

Strings are embedded as `List Char`; Python floats as exact rationals `ℚ`
(the programs only compare, add, divide and scale them, so exact rational
arithmetic is a faithful model away from float-rounding corner cases);
`datetime.now()` timestamps are an explicit `now : Nat` parameter;
the JSON files on disk are the state records themselves (each mutator
rewrites the whole document, modelled as a pure state transition).
-/

set_option maxHeartbeats 1000000
set_option maxRecDepth 100000

abbrev Str := List Char

/-- ASCII whitespace, modelling Python's regex class `\s` and `str.split()` /
`str.strip()` on the ASCII inputs this program handles. -/
def isWsChar (c : Char) : Bool :=
  c = ' ' || c = '\t' || c = '\n' || c = '\r' || c = '\x0b' || c = '\x0c'

def isDigitChar (c : Char) : Bool := '0' ≤ c && c ≤ '9'

def isAlnumChar (c : Char) : Bool :=
  ('a' ≤ c && c ≤ 'z') || ('A' ≤ c && c ≤ 'Z') || ('0' ≤ c && c ≤ '9')

/-- Python `str.lower()` restricted to ASCII (the matcher's inputs are
filtered to ASCII alphanumerics before any case-sensitive comparison). -/
def asciiLower (c : Char) : Char :=
  if 'A' ≤ c && c ≤ 'Z' then Char.ofNat (c.toNat + 32) else c

/-- Python `str.upper()` restricted to ASCII. -/
def asciiUpper (c : Char) : Char :=
  if 'a' ≤ c && c ≤ 'z' then Char.ofNat (c.toNat - 32) else c

def lowerStr (s : Str) : Str := s.map asciiLower

def upperStr (s : Str) : Str := s.map asciiUpper

/-- Python `str.strip()`: drop whitespace from both ends. -/
def trimStr (s : Str) : Str :=
  ((s.dropWhile isWsChar).reverse.dropWhile isWsChar).reverse

/-- Helper for `splitWords`: accumulates the current word (reversed). -/
def splitWordsAux : Str → Str → List Str
  | [], acc => if acc.isEmpty then [] else [acc.reverse]
  | c :: cs, acc =>
    if isWsChar c then
      if acc.isEmpty then splitWordsAux cs [] else acc.reverse :: splitWordsAux cs []
    else splitWordsAux cs (c :: acc)

/-- Python `str.split()` with no separator: split on whitespace runs,
dropping empty chunks. -/
def splitWords (s : Str) : List Str := splitWordsAux s []

/-- `PumpFunMonitor._clean_for_matching`: remove every character outside
`[a-zA-Z0-9\s]`, collapse whitespace runs to single spaces (via
`' '.join(text.split())`), and lowercase. -/
def cleanForMatching (s : Str) : Str :=
  lowerStr (List.intercalate [' '] (splitWords (s.filter (fun c => isAlnumChar c || isWsChar c))))

/-- `big.startsWith pat` as used by the substring test below. -/
def startsWithStr : Str → Str → Bool
  | _, [] => true
  | [], _ :: _ => false
  | c :: cs, d :: ds => c = d && startsWithStr cs ds

/-- Python `pat in s` substring containment. -/
def strHas (pat : Str) : Str → Bool
  | [] => pat.isEmpty
  | c :: rest => startsWithStr (c :: rest) pat || strHas pat rest

/-- One row of the longest-common-subsequence dynamic program: given the
previous row (suffix starting at the current column) and the value of the
new row's previous cell, produce the rest of the new row. -/
def lcsStep (ca : Char) : Str → List Nat → Nat → List Nat
  | [], _, _ => []
  | cb :: bs, prev, cur =>
    match prev with
    | [] => []
    | p0 :: prest =>
      let v := if cb = ca then p0 + 1 else max cur (prest.headD 0)
      v :: lcsStep ca bs prest v

/-- Length of a longest common subsequence of `a` and `b`. -/
def lcs (a b : Str) : Nat :=
  (a.foldl (fun row ca => 0 :: lcsStep ca b row 0) (List.replicate (b.length + 1) 0)).getLastD 0

/-- Model of `rapidfuzz.fuzz.ratio` (external library, spec §9: any
edit-distance-based 0–100 similarity is acceptable): the normalized indel
similarity `200·lcs/(|a|+|b|)`, with `ratio("","") = 100`. Written with
`mkRat n d` (the rational `n / d`, see `simRatio_eq`). -/
def simRatio (a b : Str) : ℚ :=
  if a.length + b.length = 0 then 100
  else mkRat (200 * lcs a b) (a.length + b.length)

/-- Lexicographic comparison of strings by code point, as Python `sorted`
uses on `str`. -/
def lexLe : Str → Str → Bool
  | [], _ => true
  | _ :: _, [] => false
  | a :: as_, b :: bs => if a < b then true else if b < a then false else lexLe as_ bs

def insertStr (x : Str) : List Str → List Str
  | [] => [x]
  | y :: ys => if lexLe x y then x :: y :: ys else y :: insertStr x ys

/-- Ascending sort of a list of strings (Python `sorted`). -/
def sortStrs : List Str → List Str := List.foldr insertStr []

/-- Model of `rapidfuzz.fuzz.token_sort_ratio` (the spec's "order-invariant,
word-level similarity ratio"): split each side into words, sort the words,
join with single spaces, then take the indel similarity. -/
def tokenSortRatio (a b : Str) : ℚ :=
  simRatio (List.intercalate [' '] (sortStrs (splitWords a)))
    (List.intercalate [' '] (sortStrs (splitWords b)))

def allInfixes (l : Str) : List Str := l.tails.flatMap List.inits

/-- Model of `rapidfuzz.fuzz.partial_ratio` (the spec's "substring-optimal
similarity ratio"): the best indel similarity between the shorter string
and any contiguous substring of the longer one. -/
def partialRatio (a b : Str) : ℚ :=
  let s := if a.length ≤ b.length then a else b
  let l := if a.length ≤ b.length then b else a
  (allInfixes l).foldl (fun acc w => max acc (simRatio s w)) 0

/-! ## Trend store (`src/database/trends_db.py`) -/

/-- A trend record as created by `TrendsDB.add_trend`. `updatedAt` is absent
until the first `update_trend`. -/
structure Trend where
  id : Nat
  keyword : Str
  description : Str
  source : Str
  aliases : List Str
  priority : Int
  createdAt : Nat
  updatedAt : Option Nat
  active : Bool
  matchCount : Nat
deriving DecidableEq

/-- An entry of the append-only `matched_coins` log. -/
structure MatchRecord where
  trendId : Nat
  coinName : Str
  coinAddress : Str
  matchedKeyword : Str
  matchedAt : Nat
deriving DecidableEq

/-- The persisted document `{"trends": [...], "matched_coins": [...]}`. -/
structure TrendsState where
  trends : List Trend
  matchedCoins : List MatchRecord
deriving DecidableEq

/-- Result of `add_trend`: on a case-insensitive keyword collision the code
returns `{"error": f"...", "existing": trend}` (carrying the conflicting
record) instead of a new record; `error` below carries that record. -/
inductive AddTrendResult where
  | error (existing : Trend)
  | ok (created : Trend)
deriving DecidableEq

/-- `TrendsDB.add_trend`: reject on case-insensitive keyword collision
(first conflicting stored trend, aliases not consulted), else append a new
record with `id = len(trends) + 1`, priority clamped to [1,5], `active=true`,
`match_count=0`. -/
def addTrend (st : TrendsState) (keyword description source : Str)
    (aliases : List Str) (priority : Int) (now : Nat) : AddTrendResult × TrendsState :=
  match st.trends.find? (fun t => lowerStr t.keyword == lowerStr keyword) with
  | some t => (.error t, st)
  | none =>
    let t : Trend :=
      { id := st.trends.length + 1
        keyword := keyword
        description := description
        source := source
        aliases := aliases
        priority := min (max priority 1) 5
        createdAt := now
        updatedAt := none
        active := true
        matchCount := 0 }
    (.ok t, { st with trends := st.trends ++ [t] })

/-- The keyword-arguments accepted by `update_trend`; a `none` field was not
supplied. Keys that are not attributes of a trend are silently ignored by the
source, so they have no counterpart here. -/
structure TrendUpdate where
  id : Option Nat := none
  keyword : Option Str := none
  description : Option Str := none
  source : Option Str := none
  aliases : Option (List Str) := none
  priority : Option Int := none
  createdAt : Option Nat := none
  active : Option Bool := none
  matchCount : Option Nat := none
deriving DecidableEq

def applyUpdate (u : TrendUpdate) (now : Nat) (t : Trend) : Trend :=
  { id := u.id.getD t.id
    keyword := u.keyword.getD t.keyword
    description := u.description.getD t.description
    source := u.source.getD t.source
    aliases := u.aliases.getD t.aliases
    priority := u.priority.getD t.priority
    createdAt := u.createdAt.getD t.createdAt
    updatedAt := some now
    active := u.active.getD t.active
    matchCount := u.matchCount.getD t.matchCount }

def updateFirst (tid : Nat) (u : TrendUpdate) (now : Nat) : List Trend → Option Trend × List Trend
  | [] => (none, [])
  | t :: ts =>
    if t.id = tid then (some (applyUpdate u now t), applyUpdate u now t :: ts)
    else
      let r := updateFirst tid u now ts
      (r.1, t :: r.2)

/-- `TrendsDB.update_trend`: overwrite the supplied known fields of the first
trend with the given id, stamp `updated_at`, return it; `none` if not found. -/
def updateTrend (st : TrendsState) (tid : Nat) (u : TrendUpdate) (now : Nat) :
    Option Trend × TrendsState :=
  let r := updateFirst tid u now st.trends
  (r.1, { st with trends := r.2 })

/-- `TrendsDB.deactivate_trend`: soft delete via `update_trend(id, active=False)`. -/
def deactivateTrend (st : TrendsState) (tid : Nat) (now : Nat) : Bool × TrendsState :=
  let r := updateTrend st tid { active := some false } now
  (r.1.isSome, r.2)

/-- `TrendsDB.delete_trend`: permanently remove every trend with the id. -/
def deleteTrend (st : TrendsState) (tid : Nat) : Bool × TrendsState :=
  let rest := st.trends.filter (fun t => t.id ≠ tid)
  if rest.length < st.trends.length then (true, { st with trends := rest })
  else (false, st)

def incFirst (tid : Nat) : List Trend → List Trend
  | [] => []
  | t :: ts =>
    if t.id = tid then { t with matchCount := t.matchCount + 1 } :: ts
    else t :: incFirst tid ts

/-- `TrendsDB.record_match`: increment `match_count` of the first trend with
the given id (no-op when absent) and append one match-log entry; a single
save commits both. `coin_address or ""` / `matched_keyword or ""` become
`getD []`. -/
def recordMatch (st : TrendsState) (tid : Nat) (coinName : Str)
    (coinAddress matchedKeyword : Option Str) (now : Nat) : MatchRecord × TrendsState :=
  let rec_ : MatchRecord :=
    { trendId := tid
      coinName := coinName
      coinAddress := coinAddress.getD []
      matchedKeyword := matchedKeyword.getD []
      matchedAt := now }
  (rec_, { trends := incFirst tid st.trends, matchedCoins := st.matchedCoins ++ [rec_] })

/-! ## Match engine (`src/monitor/pumpfun.py`) -/

/-- The fold state of `_find_match`'s loop, advanced one keyword at a time.
Faithful to the source: strategy 1 (substring, 95) and strategy 2 (symbol
exact, 90) `continue` past the later strategies, while strategies 3
(token-sort ratio, accepted at `MATCH_THRESHOLD`) and 4 (partial ratio,
accepted at `MATCH_THRESHOLD + 10`) are both evaluated, each updating the
running best on a strictly larger score. -/
def findMatchAux (thr : ℚ) (nameClean symLower : Str) :
    List (Str × Trend) → Option (Trend × Str × ℚ) → ℚ → Option (Trend × Str × ℚ)
  | [], best, _ => best
  | (kw, t) :: rest, best, bestScore =>
    let kc := cleanForMatching kw
    if strHas kc nameClean || strHas nameClean kc then
      if bestScore < 95 then findMatchAux thr nameClean symLower rest (some (t, kw, 95)) 95
      else findMatchAux thr nameClean symLower rest best bestScore
    else if kc = symLower then
      if bestScore < 90 then findMatchAux thr nameClean symLower rest (some (t, kw, 90)) 90
      else findMatchAux thr nameClean symLower rest best bestScore
    else
      let s3 := tokenSortRatio kc nameClean
      let b1 : Option (Trend × Str × ℚ) × ℚ :=
        if thr ≤ s3 ∧ bestScore < s3 then (some (t, kw, s3), s3) else (best, bestScore)
      let s4 := partialRatio kc nameClean
      let b2 : Option (Trend × Str × ℚ) × ℚ :=
        if thr + 10 ≤ s4 ∧ b1.2 < s4 then (some (t, kw, s4), s4) else b1
      findMatchAux thr nameClean symLower rest b2.1 b2.2

/-- `PumpFunMonitor._find_match(coin_name, coin_symbol, trends, keyword_map)`:
returns `(trend, matched_keyword, score)` or `None`. The `trends` parameter
of the source is unused by the function body and has no counterpart. The
keyword map is an insertion-ordered association list, as a Python dict. -/
def findMatch (thr : ℚ) (coinName coinSymbol : Str)
    (keywordMap : List (Str × Trend)) : Option (Trend × Str × ℚ) :=
  let nameClean := cleanForMatching coinName
  let symLower := lowerStr coinSymbol
  if keywordMap.isEmpty then none
  else findMatchAux thr nameClean symLower keywordMap none 0

/-- The candidate score a single keyword contributes in `_find_match`
(0 when no strategy accepts): 95 on substring either way, else 90 on exact
symbol match, else the larger of the two accepted fuzzy scores. -/
def candScore (thr : ℚ) (nameClean symLower : Str) (kw : Str) : ℚ :=
  let kc := cleanForMatching kw
  if strHas kc nameClean || strHas nameClean kc then 95
  else if kc = symLower then 90
  else
    max (if thr ≤ tokenSortRatio kc nameClean then tokenSortRatio kc nameClean else 0)
      (if thr + 10 ≤ partialRatio kc nameClean then partialRatio kc nameClean else 0)

/-- Reference selection loop: keep the first keyword whose candidate score
strictly exceeds the running best. -/
def selectBest (thr : ℚ) (nameClean symLower : Str) :
    List (Str × Trend) → Option (Trend × Str × ℚ) → ℚ → Option (Trend × Str × ℚ)
  | [], best, _ => best
  | (kw, t) :: rest, best, bestScore =>
    if bestScore < candScore thr nameClean symLower kw then
      selectBest thr nameClean symLower rest (some (t, kw, candScore thr nameClean symLower kw))
        (candScore thr nameClean symLower kw)
    else selectBest thr nameClean symLower rest best bestScore

/-- The per-keyword candidate score as the claim under scrutiny words it:
the FIRST applicable rule in the order (a) substring 95, (b) symbol 90,
(c) token-sort ratio if ≥ thr, (d) partial ratio if ≥ thr + 10 — rule (d)
consulted only when rule (c) did not apply. Written from the claim's words,
to be compared with the source-translated `findMatch`. -/
def ruleCandidateFirst (thr : ℚ) (nameClean symLower : Str) (kw : Str) : Option ℚ :=
  let kc := cleanForMatching kw
  if strHas kc nameClean || strHas nameClean kc then some 95
  else if kc = symLower then some 90
  else if thr ≤ tokenSortRatio kc nameClean then some (tokenSortRatio kc nameClean)
  else if thr + 10 ≤ partialRatio kc nameClean then some (partialRatio kc nameClean)
  else none

/-- The per-keyword candidate score as the amended claim words it: rules (a)
and (b) short-circuit; otherwise rules (c) and (d) are BOTH evaluated and
the keyword offers the best of the accepted values (so rule (d) can
supersede rule (c) when its accepted score is higher). Written from the
amended claim's words, to be compared with the source-translated
`findMatch`. -/
def ruleCandidate (thr : ℚ) (nameClean symLower : Str) (kw : Str) : Option ℚ :=
  let kc := cleanForMatching kw
  if strHas kc nameClean || strHas nameClean kc then some 95
  else if kc = symLower then some 90
  else
    ((if thr ≤ tokenSortRatio kc nameClean then [tokenSortRatio kc nameClean] else []) ++
      (if thr + 10 ≤ partialRatio kc nameClean then [partialRatio kc nameClean] else [])).max?

/-- An entity observed from the feed: `{name, symbol, mint/address}`. -/
structure Entity where
  name : Str
  symbol : Str
  address : Str
deriving DecidableEq

/-- The engine's in-memory state: the process-local seen-set plus the trend
store it writes matches through. -/
structure EngineState where
  seen : List Str
  db : TrendsState
deriving DecidableEq

/-- One iteration of the per-coin loop of `_check_graduates_fallback`
(lines 327–363; `_process_helius_tokens` has the same shape): skip an
already-seen address entirely; otherwise add the address to the seen-set
FIRST, then run `_find_match` and, on a match, `record_match`. -/
def processEntity (thr : ℚ) (keywordMap : List (Str × Trend)) (now : Nat)
    (st : EngineState) (e : Entity) : EngineState :=
  if e.address ∈ st.seen then st
  else
    let seen' := e.address :: st.seen
    match findMatch thr e.name e.symbol keywordMap with
    | some (t, kw, _) =>
      { seen := seen'
        db := (recordMatch st.db t.id e.name (some e.address) (some kw) now).2 }
    | none => { seen := seen', db := st.db }

/-- One poll cycle over a fetched list of coins (the keyword map is read
once, before the loop). -/
def pollCycle (thr : ℚ) (keywordMap : List (Str × Trend)) (now : Nat)
    (st : EngineState) (coins : List Entity) : EngineState :=
  coins.foldl (processEntity thr keywordMap now) st

/-! ## Performance ledger (`src/database/coin_performance_db.py`) -/

def digitsVal (ds : Str) : Nat := ds.foldl (fun a c => a * 10 + (c.toNat - 48)) 0

/-- The exponent tail accepted by Python `float()`: empty, or `e`/`E`,
an optional sign and at least one digit, consuming the rest. Returns the
scale factor. -/
def expPart : Str → Option ℚ
  | [] => some 1
  | c :: r =>
    if c = 'e' ∨ c = 'E' then
      let sg : Int := if r.headD ' ' = '-' then -1 else 1
      let r1 := if r.headD ' ' = '-' ∨ r.headD ' ' = '+' then r.tail else r
      let d := r1.takeWhile isDigitChar
      if d.isEmpty ∨ ¬(r1.dropWhile isDigitChar).isEmpty then none
      else some ((10 : ℚ) ^ (sg * (digitsVal d : Int)))
    else none

def fracVal (d1 d2 : Str) : ℚ :=
  (digitsVal d1 : ℚ) + (digitsVal d2 : ℚ) / (10 : ℚ) ^ d2.length

/-- Model of Python's built-in `float()` on the decimal-literal forms this
program feeds it (optional sign, digits with at most one point, optional
exponent); `none` models `ValueError`. The exotic accepted forms
(`inf`, `nan`, digit underscores) do not arise here and are not modelled. -/
def parseFloat? (s : Str) : Option ℚ :=
  let sgn : ℚ := if s.headD ' ' = '-' then -1 else 1
  let l1 := if s.headD ' ' = '-' ∨ s.headD ' ' = '+' then s.tail else s
  let d1 := l1.takeWhile isDigitChar
  let l2 := l1.dropWhile isDigitChar
  if d1.isEmpty then
    match l2 with
    | '.' :: r =>
      let d2 := r.takeWhile isDigitChar
      if d2.isEmpty then none
      else (expPart (r.dropWhile isDigitChar)).map (fun e => sgn * fracVal [] d2 * e)
    | _ => none
  else
    match l2 with
    | '.' :: r =>
      let d2 := r.takeWhile isDigitChar
      (expPart (r.dropWhile isDigitChar)).map (fun e => sgn * fracVal d1 d2 * e)
    | _ => (expPart l2).map (fun e => sgn * (digitsVal d1 : ℚ) * e)

/-- The normalization prefix of `_parse_mcap`:
`mcap_str.upper().replace("$", "").replace(",", "").strip()`. -/
def mcapNorm (s : Str) : Str :=
  trimStr (((upperStr s).filter (fun c => c ≠ '$')).filter (fun c => c ≠ ','))

/-- The `multipliers` dict of `_parse_mcap`, in insertion order. -/
def mcapMultipliers : List (Char × ℚ) :=
  [('K', 1000), ('M', 1000000), ('B', 1000000000)]

/-- `CoinPerformanceDB._parse_mcap`: after normalization, walk the
multipliers in dict order; the FIRST suffix contained ANYWHERE in the
string wins, every occurrence of it is removed (`str.replace`), and the
remainder is parsed (failure → 0 immediately, later suffixes are not
tried). With no suffix present the whole string is parsed; failure → 0.
Never throws. -/
def parseMcap (s : Str) : ℚ :=
  let u := mcapNorm s
  match mcapMultipliers.find? (fun p => u.contains p.1) with
  | some p => ((parseFloat? (u.filter (fun c => c ≠ p.1))).getD 0) * p.2
  | none => (parseFloat? u).getD 0

/-- The magnitude parser as the claim under scrutiny words it: strip ONE
leading currency symbol and the thousands separators, upper-case, and use a
K/M/B suffix only when it is TRAILING, multiplying the parsed numeric
prefix. Written from the claim's words, to be compared with the
source-translated `parseMcap`. -/
def claimParseMcap (s : Str) : ℚ :=
  let noDollar := match s with
    | '$' :: r => r
    | _ => s
  let u := trimStr (upperStr (noDollar.filter (fun c => c ≠ ',')))
  match u.getLast? with
  | some 'K' => ((parseFloat? u.dropLast).getD 0) * 1000
  | some 'M' => ((parseFloat? u.dropLast).getD 0) * 1000000
  | some 'B' => ((parseFloat? u.dropLast).getD 0) * 1000000000
  | _ => (parseFloat? u).getD 0

/-- The magnitude parser as the AMENDED claim words it: after the code's
normalization (every '$' and ',' removed anywhere, upper-case, trim), the
suffixes K, M, B are containment-tested anywhere in that order by explicit
nested conditionals; all occurrences of the winning suffix are removed and
the remainder parsed; with none present the whole string is parsed; any
failure yields 0. Written from the amended claim's words, to be compared
with the source-translated `parseMcap`. -/
def amendedParseMcap (s : Str) : ℚ :=
  let u := mcapNorm s
  if u.contains 'K' then ((parseFloat? (u.filter (fun c => c ≠ 'K'))).getD 0) * 1000
  else if u.contains 'M' then ((parseFloat? (u.filter (fun c => c ≠ 'M'))).getD 0) * 1000000
  else if u.contains 'B' then ((parseFloat? (u.filter (fun c => c ≠ 'B'))).getD 0) * 1000000000
  else (parseFloat? u).getD 0

/-- The first unit token of `(hour|hr|h|day|d|week|w|min|m)` that matches at
this position (the regex alternation tries them in this order). -/
def matchUnit (l : Str) : Option Str :=
  (["hour", "hr", "h", "day", "d", "week", "w", "min", "m"].map String.toList).find?
    (fun u => startsWithStr l u)

/-- A match of the regex `(\d+\.?\d*)\s*(hour|hr|h|day|d|week|w|min|m)`
anchored at this position: greedy digits, an optional point, greedy digits,
greedy whitespace, then the first alternation token. (For this regex the
greedy parse is exact: no unit token starts with a digit, a point or
whitespace, so backtracking can never succeed where the greedy parse
failed.) Returns the numeric group's integer digits and fraction digits —
`float(group(1))` is `fracVal` of these — and the unit group. -/
def matchNumUnit (l : Str) : Option (Str × Str × Str) :=
  let d1 := l.takeWhile isDigitChar
  if d1.isEmpty then none
  else
    let r1 := l.dropWhile isDigitChar
    let hasDot := r1.headD ' ' = '.'
    let r2 := if hasDot then r1.tail else r1
    let d2 := if hasDot then r2.takeWhile isDigitChar else []
    let r3 := if hasDot then r2.dropWhile isDigitChar else r2
    (matchUnit (r3.dropWhile isWsChar)).map (fun u => (d1, d2, u))

/-- `re.search`: try the pattern at each position, leftmost match wins. -/
def searchNumUnit : Str → Option (Str × Str × Str)
  | [] => none
  | c :: cs =>
    match matchNumUnit (c :: cs) with
    | some r => some r
    | none => searchNumUnit cs

/-- The unit conversion of `_parse_time_to_hours`: hours stay, days ×24,
weeks ×24×7, minutes ÷60. -/
def unitToHours (v : ℚ) (u : Str) : ℚ :=
  if u = "hour".toList ∨ u = "hr".toList ∨ u = "h".toList then v
  else if u = "day".toList ∨ u = "d".toList then v * 24
  else if u = "week".toList ∨ u = "w".toList then v * 24 * 7
  else if u = "min".toList ∨ u = "m".toList then v / 60
  else v

/-- `CoinPerformanceDB._parse_time_to_hours`: lowercase and strip, then
`re.search` the number-unit pattern ANYWHERE in the string; no match → 0. -/
def parseTimeToHours (s : Str) : ℚ :=
  match searchNumUnit (trimStr (lowerStr s)) with
  | none => 0
  | some (d1, d2, u) => unitToHours (fracVal d1 d2) u

/-- The duration parser as the claim under scrutiny words it: the decimal
number must be LEADING (the match anchored at the start of the normalized
string). Written from the claim's words, to be compared with the
source-translated `parseTimeToHours`. -/
def claimParseTime (s : Str) : ℚ :=
  match matchNumUnit (trimStr (lowerStr s)) with
  | none => 0
  | some (d1, d2, u) => unitToHours (fracVal d1 d2) u

/-- A coin performance record as created by `add_coin`. -/
structure Coin where
  id : Nat
  name : Str
  narrative : Str
  peakMcap : Str
  peakMcapNumeric : ℚ
  timeToPeak : Str
  timeToPeakHours : ℚ
  notes : Str
  coinAddress : Str
  entryMcap : Str
  exitMcap : Str
  recordedAt : Nat
deriving DecidableEq

/-- The floor of a rational, computed directly on its fraction. -/
def ratFloor (q : ℚ) : Int := q.num.fdiv q.den

/-- Round half to even, as Python's fixed-point formatting does. The
fractional part `q - floor q` is compared with 1/2 by cross-multiplying:
`q - f < 1/2` iff `2 * q.num < (2 * f + 1) * q.den`. -/
def roundHalfEven (q : ℚ) : Int :=
  let f := ratFloor q
  if 2 * q.num < (2 * f + 1) * (q.den : Int) then f
  else if (2 * f + 1) * (q.den : Int) < 2 * q.num then f + 1
  else if f % 2 = 0 then f else f + 1

def natDigitsStr (n : Nat) : Str := Nat.toDigits 10 n

/-- The rational `q * k` (`qMulNat_eq`), in normalized form. -/
def qMulNat (q : ℚ) (k : Nat) : ℚ := mkRat (q.num * k) q.den

/-- The rational `q / k` (`divNat_eq`), in normalized form. -/
def divNat (q : ℚ) (k : Nat) : ℚ := mkRat q.num (q.den * k)

/-- Python `f"{v:.0f}"` for the nonnegative values this program formats. -/
def fmt0 (q : ℚ) : Str := natDigitsStr (roundHalfEven q).toNat

/-- Python `f"{v:.1f}"` for the nonnegative values this program formats
(`qMulNat q 10 = q * 10`). -/
def fmt1 (q : ℚ) : Str :=
  let m := (roundHalfEven (qMulNat q 10)).toNat
  natDigitsStr (m / 10) ++ '.' :: natDigitsStr (m % 10)

/-- `CoinPerformanceDB._format_mcap` (`divNat v k = v / k`). -/
def formatMcap (v : ℚ) : Str :=
  if 1000000000 ≤ v then '$' :: (fmt1 (divNat v 1000000000) ++ ['B'])
  else if 1000000 ≤ v then '$' :: (fmt0 (divNat v 1000000) ++ ['M'])
  else if 1000 ≤ v then '$' :: (fmt0 (divNat v 1000) ++ ['K'])
  else '$' :: fmt0 v

/-- `CoinPerformanceDB._format_hours` (`divNat h k = h / k`). -/
def formatHours (h : ℚ) : Str :=
  if 168 ≤ h then fmt1 (divNat h 168) ++ " weeks".toList
  else if 24 ≤ h then fmt1 (divNat h 24) ++ " days".toList
  else fmt0 h ++ " hours".toList

def addToGroups (n : Str) (c : Coin) : List (Str × List Coin) → List (Str × List Coin)
  | [] => [(n, [c])]
  | (k, cs) :: rest =>
    if k = n then (k, cs ++ [c]) :: rest else (k, cs) :: addToGroups n c rest

/-- The `by_narrative` dict of `_update_meta_analysis`: keys in order of
first occurrence, each group in record order. -/
def groupByNarrative (coins : List Coin) : List (Str × List Coin) :=
  coins.foldl (fun g c => addToGroups c.narrative c g) []

def narrativeMcaps (cs : List Coin) : List ℚ :=
  (cs.map Coin.peakMcapNumeric).filter (fun q => decide (0 < q))

def narrativeTimes (cs : List Coin) : List ℚ :=
  (cs.map Coin.timeToPeakHours).filter (fun q => decide (0 < q))

def listMin : List ℚ → ℚ
  | [] => 0
  | x :: xs => xs.foldl min x

def listMax : List ℚ → ℚ
  | [] => 0
  | x :: xs => xs.foldl max x

def sumList (l : List ℚ) : ℚ := l.foldl (· + ·) 0

/-- The per-narrative aggregate entry of the `meta_analysis` cache. -/
structure NarrativeAnalysis where
  count : Nat
  avgPeakMcap : ℚ
  minPeakMcap : ℚ
  maxPeakMcap : ℚ
  medianPeakMcap : ℚ
  avgTimeToPeakHours : ℚ
  suggestedCeiling : Str
  suggestedHoldTime : Str
deriving DecidableEq

/-- The entry `_update_meta_analysis` computes for one narrative group
(only ever used when the group's positive-mcap subset is nonempty). -/
def mkAnalysis (cs : List Coin) : NarrativeAnalysis :=
  let mcaps := narrativeMcaps cs
  let times := narrativeTimes cs
  let sorted := List.insertionSort (fun a b : ℚ => a ≤ b) mcaps
  let med := sorted.getD (mcaps.length / 2) 0
  { count := cs.length
    avgPeakMcap := sumList mcaps / mcaps.length
    minPeakMcap := listMin mcaps
    maxPeakMcap := listMax mcaps
    medianPeakMcap := med
    avgTimeToPeakHours := if times.isEmpty then 0 else sumList times / times.length
    suggestedCeiling := formatMcap med
    suggestedHoldTime := if times.isEmpty then "unknown".toList else formatHours (sumList times / times.length) }

/-- `CoinPerformanceDB._update_meta_analysis`: group every record by
narrative and keep an aggregate entry for each group — but ONLY for groups
whose positive-mcap subset is nonempty (`if mcaps:`). -/
def computeMeta (coins : List Coin) : List (Str × NarrativeAnalysis) :=
  (groupByNarrative coins).filterMap
    (fun p => if (narrativeMcaps p.2).isEmpty then none else some (p.1, mkAnalysis p.2))

/-- The persisted document `{"coins": [...], "meta_analysis": {...}}`. -/
structure PerfState where
  coins : List Coin
  metaAnalysis : List (Str × NarrativeAnalysis)
deriving DecidableEq

/-- Python `narrative.lower().replace(" ", "_")`. -/
def snakeNarrative (s : Str) : Str :=
  (lowerStr s).map (fun c => if c = ' ' then '_' else c)

/-- `CoinPerformanceDB.add_coin`: parse the free-text fields, append the
record with `id = len(coins) + 1`, persist, then fully recompute the
meta-analysis from the stored records. -/
def addCoin (st : PerfState) (name narrative peakMcap timeToPeak notes coinAddress entryMcap exitMcap : Str)
    (now : Nat) : Coin × PerfState :=
  let c : Coin :=
    { id := st.coins.length + 1
      name := upperStr name
      narrative := snakeNarrative narrative
      peakMcap := peakMcap
      peakMcapNumeric := parseMcap peakMcap
      timeToPeak := timeToPeak
      timeToPeakHours := parseTimeToHours timeToPeak
      notes := notes
      coinAddress := coinAddress
      entryMcap := entryMcap
      exitMcap := exitMcap
      recordedAt := now }
  let coins' := st.coins ++ [c]
  (c, { coins := coins', metaAnalysis := computeMeta coins' })

/-- `CoinPerformanceDB.delete_coin`: remove the records with the id; when
anything was removed, persist and fully recompute the meta-analysis. -/
def deleteCoin (st : PerfState) (cid : Nat) : Bool × PerfState :=
  let rest := st.coins.filter (fun c => c.id ≠ cid)
  if rest.length < st.coins.length then
    (true, { coins := rest, metaAnalysis := computeMeta rest })
  else (false, st)

/-! ## Sample data used by concrete witnesses and counterexamples -/

def demoTrend1 : Trend :=
  { id := 1, keyword := "vibe coding".toList, description := [], source := [],
    aliases := [], priority := 3, createdAt := 0, updatedAt := none,
    active := true, matchCount := 0 }

def demoTrend2 : Trend :=
  { id := 2, keyword := "dog".toList, description := [], source := [],
    aliases := ["cat".toList], priority := 1, createdAt := 0, updatedAt := none,
    active := true, matchCount := 0 }

def demoTrendX : Trend :=
  { id := 7, keyword := "abcxde".toList, description := [], source := [],
    aliases := [], priority := 1, createdAt := 0, updatedAt := none,
    active := true, matchCount := 5 }

def demoMap : List (Str × Trend) :=
  [("vibe coding".toList, demoTrend1), ("dog".toList, demoTrend2)]

/-- The state reached from an empty store by: add "a", add "b",
delete trend 1, add "c" — the failing input for the id-uniqueness claim. -/
def idCollisionDemo : TrendsState :=
  (addTrend (deleteTrend (addTrend (addTrend ⟨[], []⟩
    "a".toList [] [] [] 1 0).2 "b".toList [] [] [] 1 1).2 1).2 "c".toList [] [] [] 1 2).2

/-- One poll from the initial engine state over a feed with a single entity
that matches nothing (the keyword map is empty). -/
def nonMatchingPollDemo : EngineState :=
  pollCycle 60 [] 0 ⟨[], ⟨[], []⟩⟩ [⟨"zz".toList, [], "addr1".toList⟩]

/-- A concrete coin record for the witnesses. -/
def demoCoin (i : Nat) (nm : Str) (q : ℚ) : Coin :=
  { id := i, name := nm, narrative := "x".toList, peakMcap := [],
    peakMcapNumeric := q, timeToPeak := [], timeToPeakHours := 1,
    notes := [], coinAddress := [], entryMcap := [], exitMcap := [],
    recordedAt := 0 }

/-- Four records in one narrative with peak mcaps 100, 200, 300, 400. -/
def demoCoins : List Coin :=
  [demoCoin 1 "A".toList 100, demoCoin 2 "B".toList 200,
    demoCoin 3 "C".toList 300, demoCoin 4 "D".toList 400]

/-- A single record whose peak mcap is unparseable ("abc" → 0.0). -/
def perfUnparsableDemo : PerfState :=
  (addCoin ⟨[], []⟩ "N".toList "x".toList "abc".toList "3 days".toList [] [] [] [] 0).2

/-! ## General lemmas -/

theorem simRatio_nonneg (a b : Str) : 0 ≤ simRatio a b := by
  unfold simRatio
  split
  · norm_num
  · rw [Rat.mkRat_eq_div]
    positivity

theorem tokenSortRatio_nonneg (a b : Str) : 0 ≤ tokenSortRatio a b := by
  unfold tokenSortRatio
  exact simRatio_nonneg _ _

theorem le_foldl_max (f : Str → ℚ) (l : List Str) :
    ∀ a : ℚ, a ≤ l.foldl (fun acc w => max acc (f w)) a := by
  induction l with
  | nil => intro a; exact le_refl a
  | cons x xs ih => intro a; exact le_trans (le_max_left a (f x)) (ih (max a (f x)))

theorem partialRatio_nonneg (a b : Str) : 0 ≤ partialRatio a b := by
  unfold partialRatio
  exact le_foldl_max _ _ 0

theorem candScore_nonneg (thr : ℚ) (n sym kw : Str) : 0 ≤ candScore thr n sym kw := by
  unfold candScore
  dsimp only
  split
  · norm_num
  · split
    · norm_num
    · refine le_trans ?_ (le_max_left _ _)
      split
      · exact tokenSortRatio_nonneg _ _
      · exact le_refl 0

theorem find?_first {α : Type} (p : α → Bool) (t0 : α) :
    ∀ (pre post : List α), (∀ u ∈ pre, p u = false) → p t0 = true →
      List.find? p (pre ++ t0 :: post) = some t0 := by
  intro pre
  induction pre with
  | nil =>
    intro post _ ht
    simp [List.find?, ht]
  | cons u pre ih =>
    intro post hpre ht
    have hu : p u = false := hpre u (List.mem_cons_self u pre)
    simp only [List.cons_append, List.find?, hu]
    exact ih post (fun v hv => hpre v (List.mem_cons_of_mem u hv)) ht

theorem incFirst_first (tid : Nat) (t : Trend) :
    ∀ (pre post : List Trend), t.id = tid → (∀ u ∈ pre, u.id ≠ tid) →
      incFirst tid (pre ++ t :: post) = pre ++ { t with matchCount := t.matchCount + 1 } :: post := by
  intro pre
  induction pre with
  | nil =>
    intro post ht _
    simp [incFirst, ht]
  | cons u pre ih =>
    intro post ht hpre
    have hu : u.id ≠ tid := hpre u (List.mem_cons_self u pre)
    simp only [List.cons_append, incFirst, if_neg hu, List.append_eq]
    rw [ih post ht (fun v hv => hpre v (List.mem_cons_of_mem u hv))]

/-- C4: `add_trend` on a keyword that collides case-insensitively with a
stored trend's keyword is rejected: the conflicting existing record (the
first one, unchanged) is returned instead of raising, no trend is created
and the persisted store is left unchanged. Aliases are not consulted: when
no stored KEYWORD collides, the call succeeds and appends the new record,
regardless of what any stored alias list contains. -/
theorem addTrend_collision_spec (st : TrendsState) (k d src : Str) (al : List Str)
    (p : Int) (now : Nat) :
    (∀ t0 pre post, st.trends = pre ++ t0 :: post →
        lowerStr t0.keyword = lowerStr k →
        (∀ u ∈ pre, lowerStr u.keyword ≠ lowerStr k) →
        addTrend st k d src al p now = (AddTrendResult.error t0, st))
    ∧ ((∀ t ∈ st.trends, lowerStr t.keyword ≠ lowerStr k) →
        ∃ newT, addTrend st k d src al p now
            = (AddTrendResult.ok newT, { st with trends := st.trends ++ [newT] })
          ∧ newT.keyword = k ∧ newT.matchCount = 0 ∧ newT.active = true
          ∧ newT.id = st.trends.length + 1) := by
  constructor
  · intro t0 pre post hsplit ht0 hpre
    have hfind : st.trends.find? (fun t => lowerStr t.keyword == lowerStr k) = some t0 := by
      rw [hsplit]
      refine find?_first _ _ _ _ ?_ ?_
      · intro u hu
        simp only [beq_eq_false_iff_ne, ne_eq]
        exact hpre u hu
      · simp only [beq_iff_eq]
        exact ht0
    unfold addTrend
    rw [hfind]
  · intro hno
    have hfind : st.trends.find? (fun t => lowerStr t.keyword == lowerStr k) = none := by
      rw [List.find?_eq_none]
      intro u hu
      simp only [beq_iff_eq]
      exact hno u hu
    unfold addTrend
    rw [hfind]
    exact ⟨_, rfl, rfl, rfl, rfl, rfl⟩

/-- Witness for the collision theorem: a store holding keyword "Dog" (with
alias "cat") rejects adding "dOg" and returns the stored record; and a
store whose only alias is "cat" still accepts adding keyword "cat". -/
theorem addTrend_collision_spec_witness :
    addTrend ⟨[demoTrend2], []⟩ "dOg".toList [] [] [] 1 9
        = (AddTrendResult.error demoTrend2, ⟨[demoTrend2], []⟩)
    ∧ ∃ newT, addTrend ⟨[demoTrend2], []⟩ "cat".toList [] [] [] 1 9
        = (AddTrendResult.ok newT, ⟨[demoTrend2, newT], []⟩) := by
  constructor
  · exact (addTrend_collision_spec ⟨[demoTrend2], []⟩ "dOg".toList [] [] [] 1 9).1
      demoTrend2 [] [] rfl (by decide) (by decide)
  · obtain ⟨newT, h1, -⟩ :=
      (addTrend_collision_spec ⟨[demoTrend2], []⟩ "cat".toList [] [] [] 1 9).2 (by decide)
    exact ⟨newT, h1⟩

/-- C5: `record_match(tid, ...)` increments the match counter of the trend
identified by `tid` by exactly one, appends exactly one match-log entry
with the given fields, and both effects land in the same resulting store
state (the source performs one save of the whole document, so no observable
state has one effect without the other). -/
theorem recordMatch_spec (st : TrendsState) (tid : Nat) (coinName : Str)
    (addr kw : Option Str) (now : Nat) (pre : List Trend) (t : Trend) (post : List Trend) :
    st.trends = pre ++ t :: post → t.id = tid → (∀ u ∈ pre, u.id ≠ tid) →
    (recordMatch st tid coinName addr kw now).2.trends
        = pre ++ { t with matchCount := t.matchCount + 1 } :: post
    ∧ (recordMatch st tid coinName addr kw now).2.matchedCoins
        = st.matchedCoins ++
            [{ trendId := tid, coinName := coinName, coinAddress := addr.getD [],
               matchedKeyword := kw.getD [], matchedAt := now }] := by
  intro hsplit ht hpre
  constructor
  · show incFirst tid st.trends = _
    rw [hsplit]
    exact incFirst_first tid t pre post ht hpre
  · rfl

/-- Witness: recording a match for trend 1 in a one-trend store bumps its
counter to 1 and appends the one log entry, in the same state. -/
theorem recordMatch_spec_witness :
    (recordMatch ⟨[demoTrend1], []⟩ 1 "Vibe Codoor".toList (some "addr9".toList)
        (some "vibe coding".toList) 5).2.trends
      = [{ demoTrend1 with matchCount := 1 }]
    ∧ (recordMatch ⟨[demoTrend1], []⟩ 1 "Vibe Codoor".toList (some "addr9".toList)
        (some "vibe coding".toList) 5).2.matchedCoins
      = [{ trendId := 1, coinName := "Vibe Codoor".toList, coinAddress := "addr9".toList,
           matchedKeyword := "vibe coding".toList, matchedAt := 5 }] :=
  recordMatch_spec ⟨[demoTrend1], []⟩ 1 "Vibe Codoor".toList (some "addr9".toList)
    (some "vibe coding".toList) 5 [] demoTrend1 [] rfl rfl (by decide)

/-- C6: the id-uniqueness invariant FAILS on the code. `add_trend` assigns
`id = len(trends) + 1`, so after add "a" (id 1), add "b" (id 2),
delete_trend 1, add "c", the store holds two trends both with id 2: ids are
reused after deletion, exactly the open issue the spec flags. -/
theorem trendIds_collide :
    idCollisionDemo.trends.map Trend.id = [2, 2]
    ∧ ¬ (idCollisionDemo.trends.map Trend.id).Nodup := by
  constructor
  · decide
  · decide


/-- C7 (amended): `_parse_mcap` behaves as the amended description —
currency symbols and thousands separators are stripped everywhere,
suffixes are containment-tested anywhere (K, then M, then B) with all
occurrences removed — and satisfies all the spec's examples, never
throwing (it is a total function into ℚ). -/
theorem parseMcap_amended :
    (∀ s, parseMcap s = amendedParseMcap s)
    ∧ parseMcap "500M".toList = 500000000
    ∧ parseMcap "1.2B".toList = 1200000000
    ∧ parseMcap "50K".toList = 50000
    ∧ parseMcap "$1,000".toList = 1000
    ∧ parseMcap "abc".toList = 0 := by
  refine ⟨?_, ?_, ?_, ?_, ?_, ?_⟩
  · intro s
    unfold parseMcap amendedParseMcap
    by_cases hK : 'K' ∈ mcapNorm s
    · simp [mcapMultipliers, List.find?, hK]
    · by_cases hM : 'M' ∈ mcapNorm s
      · simp [mcapMultipliers, List.find?, hK, hM]
      · by_cases hB : 'B' ∈ mcapNorm s
        · simp [mcapMultipliers, List.find?, hK, hM, hB]
        · simp [mcapMultipliers, List.find?, hK, hM, hB]
  · have hpf : parseFloat? ['5', '0', '0'] = some 500 := by
      norm_num +decide [parseFloat?, expPart, (by decide : digitsVal ['5', '0', '0'] = 500)]
    unfold parseMcap
    dsimp only
    rw [(by decide : mcapNorm "500M".toList = ['5', '0', '0', 'M']),
      (by decide : mcapMultipliers.find? (fun p => (['5', '0', '0', 'M'] : Str).contains p.1)
        = some ('M', 1000000))]
    dsimp only
    rw [(by decide : List.filter (fun c => c ≠ 'M') ['5', '0', '0', 'M'] = ['5', '0', '0']), hpf]
    norm_num
  · have hpf : parseFloat? ['1', '.', '2'] = some (6 / 5) := by
      norm_num +decide [parseFloat?, expPart, fracVal,
        (by decide : digitsVal ['1'] = 1), (by decide : digitsVal ['2'] = 2)]
    unfold parseMcap
    dsimp only
    rw [(by decide : mcapNorm "1.2B".toList = ['1', '.', '2', 'B']),
      (by decide : mcapMultipliers.find? (fun p => (['1', '.', '2', 'B'] : Str).contains p.1)
        = some ('B', 1000000000))]
    dsimp only
    rw [(by decide : List.filter (fun c => c ≠ 'B') ['1', '.', '2', 'B'] = ['1', '.', '2']), hpf]
    norm_num
  · have hpf : parseFloat? ['5', '0'] = some 50 := by
      norm_num +decide [parseFloat?, expPart, (by decide : digitsVal ['5', '0'] = 50)]
    unfold parseMcap
    dsimp only
    rw [(by decide : mcapNorm "50K".toList = ['5', '0', 'K']),
      (by decide : mcapMultipliers.find? (fun p => (['5', '0', 'K'] : Str).contains p.1)
        = some ('K', 1000))]
    dsimp only
    rw [(by decide : List.filter (fun c => c ≠ 'K') ['5', '0', 'K'] = ['5', '0']), hpf]
    norm_num
  · have hpf : parseFloat? ['1', '0', '0', '0'] = some 1000 := by
      norm_num +decide [parseFloat?, expPart, (by decide : digitsVal ['1', '0', '0', '0'] = 1000)]
    unfold parseMcap
    dsimp only
    rw [(by decide : mcapNorm "$1,000".toList = ['1', '0', '0', '0']),
      (by decide : mcapMultipliers.find? (fun p => (['1', '0', '0', '0'] : Str).contains p.1)
        = none)]
    dsimp only
    rw [hpf]
    norm_num
  · unfold parseMcap
    dsimp only
    rw [(by decide : mcapNorm "abc".toList = ['A', 'B', 'C']),
      (by decide : mcapMultipliers.find? (fun p => (['A', 'B', 'C'] : Str).contains p.1)
        = some ('B', 1000000000))]
    dsimp only
    rw [(by decide : List.filter (fun c => c ≠ 'B') ['A', 'B', 'C'] = ['A', 'C']),
      (by decide : parseFloat? ['A', 'C'] = none)]
    norm_num

/-- C7 (counterexample): the claim's reading — leading currency symbol
only, trailing suffix only — disagrees with the code. "K5" has no trailing
suffix and is not a plain number, so the claim yields 0.0, but the code
finds the contained 'K' and returns 5000.0; "5$0" has no leading '$', so
the claim yields 0.0, but the code strips the inner '$' and returns 50.0. -/
theorem parseMcap_cex :
    parseMcap "K5".toList = 5000 ∧ claimParseMcap "K5".toList = 0
    ∧ parseMcap "5$0".toList = 50 ∧ claimParseMcap "5$0".toList = 0
    ∧ (5000 : ℚ) ≠ 0 ∧ (50 : ℚ) ≠ 0 := by
  refine ⟨?_, by decide, ?_, by decide, by norm_num, by norm_num⟩
  · have hpf : parseFloat? ['5'] = some 5 := by
      norm_num +decide [parseFloat?, expPart, (by decide : digitsVal ['5'] = 5)]
    unfold parseMcap
    dsimp only
    rw [(by decide : mcapNorm "K5".toList = ['K', '5']),
      (by decide : mcapMultipliers.find? (fun p => (['K', '5'] : Str).contains p.1)
        = some ('K', 1000))]
    dsimp only
    rw [(by decide : List.filter (fun c => c ≠ 'K') ['K', '5'] = ['5']), hpf]
    norm_num
  · have hpf : parseFloat? ['5', '0'] = some 50 := by
      norm_num +decide [parseFloat?, expPart, (by decide : digitsVal ['5', '0'] = 50)]
    unfold parseMcap
    dsimp only
    rw [(by decide : mcapNorm "5$0".toList = ['5', '0']),
      (by decide : mcapMultipliers.find? (fun p => (['5', '0'] : Str).contains p.1)
        = none)]
    dsimp only
    rw [hpf]
    norm_num

theorem matchNumUnit_nil : matchNumUnit [] = none := rfl

theorem searchNumUnit_some (r : Str × Str × Str) :
    ∀ (l : Str) (i : Nat), matchNumUnit (l.drop i) = some r →
      (∀ j, j < i → matchNumUnit (l.drop j) = none) →
      searchNumUnit l = some r := by
  intro l
  induction l with
  | nil =>
    intro i hi _
    rw [List.drop_nil] at hi
    exact absurd hi (by simp [matchNumUnit_nil])
  | cons c cs ih =>
    intro i hi hj
    cases i with
    | zero =>
      rw [List.drop_zero] at hi
      unfold searchNumUnit
      rw [hi]
    | succ i' =>
      have h0 : matchNumUnit (c :: cs) = none := by
        have := hj 0 (Nat.succ_pos i')
        rwa [List.drop_zero] at this
      unfold searchNumUnit
      rw [h0]
      exact ih i' (by rwa [List.drop_succ_cons] at hi)
        (fun j hji => by
          have := hj (j + 1) (Nat.succ_lt_succ hji)
          rwa [List.drop_succ_cons] at this)

theorem searchNumUnit_none :
    ∀ l : Str, (∀ i, matchNumUnit (l.drop i) = none) → searchNumUnit l = none := by
  intro l
  induction l with
  | nil => intro _; rfl
  | cons c cs ih =>
    intro h
    have h0 : matchNumUnit (c :: cs) = none := by
      have := h 0; rwa [List.drop_zero] at this
    unfold searchNumUnit
    rw [h0]
    exact ih (fun i => by have := h (i + 1); rwa [List.drop_succ_cons] at this)

/-- C8 (amended): `_parse_time_to_hours` lowercases and strips, then
searches the number-unit pattern ANYWHERE in the string (`re.search`,
leftmost occurrence wins — the number need not lead the string), converts
the matched number through day=24h, week=168h, min=1/60h, and yields 0
when no position matches; all the spec's examples hold, and "x3h" parses
to 3. -/
theorem parseTime_amended :
    (∀ (s : Str) (i : Nat) (d1 d2 u : Str),
        matchNumUnit ((trimStr (lowerStr s)).drop i) = some (d1, d2, u) →
        (∀ j, j < i → matchNumUnit ((trimStr (lowerStr s)).drop j) = none) →
        parseTimeToHours s = unitToHours (fracVal d1 d2) u)
    ∧ (∀ s : Str, (∀ i, matchNumUnit ((trimStr (lowerStr s)).drop i) = none) →
        parseTimeToHours s = 0)
    ∧ parseTimeToHours "3 days".toList = 72
    ∧ parseTimeToHours "12 hours".toList = 12
    ∧ parseTimeToHours "1 week".toList = 168
    ∧ parseTimeToHours "30 min".toList = 1 / 2
    ∧ parseTimeToHours "garbage".toList = 0
    ∧ parseTimeToHours "x3h".toList = 3 := by
  refine ⟨?_, ?_, ?_, ?_, ?_, ?_, ?_, ?_⟩
  · intro s i d1 d2 u hi hj
    unfold parseTimeToHours
    rw [searchNumUnit_some (d1, d2, u) (trimStr (lowerStr s)) i hi hj]
  · intro s h
    unfold parseTimeToHours
    rw [searchNumUnit_none (trimStr (lowerStr s)) h]
  · unfold parseTimeToHours
    rw [(by decide : searchNumUnit (trimStr (lowerStr "3 days".toList))
      = some (['3'], [], "day".toList))]
    norm_num +decide [unitToHours, fracVal, (by decide : digitsVal ['3'] = 3),
      (by decide : digitsVal ([] : Str) = 0)]
  · unfold parseTimeToHours
    rw [(by decide : searchNumUnit (trimStr (lowerStr "12 hours".toList))
      = some (['1', '2'], [], "hour".toList))]
    norm_num +decide [unitToHours, fracVal, (by decide : digitsVal ['1', '2'] = 12),
      (by decide : digitsVal ([] : Str) = 0)]
  · unfold parseTimeToHours
    rw [(by decide : searchNumUnit (trimStr (lowerStr "1 week".toList))
      = some (['1'], [], "week".toList))]
    norm_num +decide [unitToHours, fracVal, (by decide : digitsVal ['1'] = 1),
      (by decide : digitsVal ([] : Str) = 0)]
  · unfold parseTimeToHours
    rw [(by decide : searchNumUnit (trimStr (lowerStr "30 min".toList))
      = some (['3', '0'], [], "min".toList))]
    norm_num +decide [unitToHours, fracVal, (by decide : digitsVal ['3', '0'] = 30),
      (by decide : digitsVal ([] : Str) = 0)]
  · unfold parseTimeToHours
    rw [(by decide : searchNumUnit (trimStr (lowerStr "garbage".toList)) = none)]
  · unfold parseTimeToHours
    rw [(by decide : searchNumUnit (trimStr (lowerStr "x3h".toList))
      = some (['3'], [], "h".toList))]
    norm_num +decide [unitToHours, fracVal, (by decide : digitsVal ['3'] = 3),
      (by decide : digitsVal ([] : Str) = 0)]

/-- Witness: the leftmost-match clause applied at "2 hr" with the match at
position 0 gives 2 hours. -/
theorem parseTime_amended_witness : parseTimeToHours "2 hr".toList = 2 := by
  have h := parseTime_amended.1 "2 hr".toList 0 ['2'] [] "hr".toList (by decide)
    (fun j hj => absurd hj (Nat.not_lt_zero j))
  rw [h]
  norm_num +decide [unitToHours, fracVal, (by decide : digitsVal ['2'] = 2),
    (by decide : digitsVal ([] : Str) = 0)]

/-- C8 (counterexample): on "x3h" the number is not leading — the claim's
anchored reading yields 0.0 — yet the code's `re.search` finds "3h" at
position 1 and returns 3.0. -/
theorem parseTime_cex :
    parseTimeToHours "x3h".toList = 3 ∧ claimParseTime "x3h".toList = 0
    ∧ (3 : ℚ) ≠ 0 := by
  refine ⟨?_, by decide, by norm_num⟩
  unfold parseTimeToHours
  rw [(by decide : searchNumUnit (trimStr (lowerStr "x3h".toList))
    = some (['3'], [], "h".toList))]
  norm_num +decide [unitToHours, fracVal, (by decide : digitsVal ['3'] = 3)]

theorem findMatchAux_cons (thr : ℚ) (n sym kw : Str) (t : Trend)
    (rest : List (Str × Trend)) (best : Option (Trend × Str × ℚ)) (bs : ℚ) (hbs : 0 ≤ bs) :
    findMatchAux thr n sym ((kw, t) :: rest) best bs =
      if bs < candScore thr n sym kw then
        findMatchAux thr n sym rest (some (t, kw, candScore thr n sym kw))
          (candScore thr n sym kw)
      else findMatchAux thr n sym rest best bs := by
  unfold candScore
  rw [findMatchAux]
  dsimp only
  by_cases h1 : (strHas (cleanForMatching kw) n || strHas n (cleanForMatching kw)) = true
  · simp only [h1, if_pos]
  · simp only [h1, if_neg, Bool.false_eq_true, if_false]
    by_cases h2 : cleanForMatching kw = sym
    · simp only [h2, if_pos]
    · simp only [h2, if_neg, if_false]
      have h3 : 0 ≤ tokenSortRatio (cleanForMatching kw) n := tokenSortRatio_nonneg _ _
      have h4 : 0 ≤ partialRatio (cleanForMatching kw) n := partialRatio_nonneg _ _
      set s3 := tokenSortRatio (cleanForMatching kw) n
      set s4 := partialRatio (cleanForMatching kw) n
      by_cases hc3 : thr ≤ s3
      · by_cases hb3 : bs < s3
        · rw [if_pos (And.intro hc3 hb3)]
          dsimp only
          by_cases hc4 : thr + 10 ≤ s4
          · by_cases h34 : s3 < s4
            · rw [if_pos (And.intro hc4 h34), if_pos hc3, if_pos hc4,
                max_eq_right (le_of_lt h34), if_pos (lt_trans hb3 h34)]
            · rw [if_neg (not_and.mpr (fun _ => h34)), if_pos hc3, if_pos hc4,
                max_eq_left (not_lt.mp h34), if_pos hb3]
          · rw [if_neg (not_and.mpr (fun hp => absurd hp hc4)), if_pos hc3, if_neg hc4,
              max_eq_left h3, if_pos hb3]
        · rw [if_neg (not_and.mpr (fun _ => hb3))]
          dsimp only
          by_cases hc4 : thr + 10 ≤ s4
          · by_cases hb4 : bs < s4
            · rw [if_pos (And.intro hc4 hb4), if_pos hc3, if_pos hc4,
                max_eq_right (by linarith : s3 ≤ s4), if_pos hb4]
            · rw [if_neg (not_and.mpr (fun _ => hb4)), if_pos hc3, if_pos hc4,
                if_neg (not_lt.mpr (max_le (not_lt.mp hb3) (not_lt.mp hb4)))]
          · rw [if_neg (not_and.mpr (fun hp => absurd hp hc4)), if_pos hc3, if_neg hc4,
              max_eq_left h3, if_neg hb3]
      · rw [if_neg (not_and.mpr (fun hp => absurd hp hc3))]
        dsimp only
        by_cases hc4 : thr + 10 ≤ s4
        · by_cases hb4 : bs < s4
          · rw [if_pos (And.intro hc4 hb4), if_neg hc3, if_pos hc4,
              max_eq_right h4, if_pos hb4]
          · rw [if_neg (not_and.mpr (fun _ => hb4)), if_neg hc3, if_pos hc4,
              max_eq_right h4, if_neg hb4]
        · rw [if_neg (not_and.mpr (fun hp => absurd hp hc4)), if_neg hc3, if_neg hc4,
            max_self, if_neg (not_lt.mpr hbs)]

theorem findMatchAux_eq_selectBest (thr : ℚ) (n sym : Str) :
    ∀ (m : List (Str × Trend)) (best : Option (Trend × Str × ℚ)) (bs : ℚ), 0 ≤ bs →
      findMatchAux thr n sym m best bs = selectBest thr n sym m best bs := by
  intro m
  induction m with
  | nil => intro best bs _; rfl
  | cons p rest ih =>
    intro best bs hbs
    obtain ⟨kw, t⟩ := p
    rw [findMatchAux_cons thr n sym kw t rest best bs hbs, selectBest]
    by_cases h : bs < candScore thr n sym kw
    · rw [if_pos h, if_pos h]
      exact ih _ _ (candScore_nonneg thr n sym kw)
    · rw [if_neg h, if_neg h]
      exact ih _ _ hbs

theorem selectBest_char (thr : ℚ) (n sym : Str) :
    ∀ (m : List (Str × Trend)) (best : Option (Trend × Str × ℚ)) (bs : ℚ),
      ((∀ p ∈ m, candScore thr n sym p.1 ≤ bs) ∧ selectBest thr n sym m best bs = best)
      ∨ (∃ i, ∃ hi : i < m.length,
          selectBest thr n sym m best bs
            = some ((m.get ⟨i, hi⟩).2, (m.get ⟨i, hi⟩).1, candScore thr n sym (m.get ⟨i, hi⟩).1)
          ∧ bs < candScore thr n sym (m.get ⟨i, hi⟩).1
          ∧ (∀ j, ∀ hj : j < m.length,
              candScore thr n sym (m.get ⟨j, hj⟩).1 ≤ candScore thr n sym (m.get ⟨i, hi⟩).1)
          ∧ (∀ j, ∀ hj : j < m.length, j < i →
              candScore thr n sym (m.get ⟨j, hj⟩).1 < candScore thr n sym (m.get ⟨i, hi⟩).1)) := by
  intro m
  induction m with
  | nil => intro best bs; exact Or.inl ⟨fun p hp => absurd hp (List.not_mem_nil p), rfl⟩
  | cons q rest ih =>
    intro best bs
    obtain ⟨kw, t⟩ := q
    rw [selectBest]
    by_cases h : bs < candScore thr n sym kw
    · rw [if_pos h]
      rcases ih (some (t, kw, candScore thr n sym kw)) (candScore thr n sym kw) with
        ⟨hall, heq⟩ | ⟨i, hi, heq, hlt, hmax, hstrict⟩
      · refine Or.inr ⟨0, Nat.succ_pos _, heq, h, ?_, ?_⟩
        · intro j hj
          cases j with
          | zero => exact le_refl _
          | succ j' =>
            exact hall _ (List.get_mem rest j' (Nat.lt_of_succ_lt_succ hj))
        · intro j hj hj0
          exact absurd hj0 (Nat.not_lt_zero j)
      · refine Or.inr ⟨i + 1, Nat.succ_lt_succ hi, heq, lt_trans h hlt, ?_, ?_⟩
        · intro j hj
          cases j with
          | zero => exact le_of_lt hlt
          | succ j' => exact hmax j' (Nat.lt_of_succ_lt_succ hj)
        · intro j hj hji
          cases j with
          | zero => exact hlt
          | succ j' => exact hstrict j' (Nat.lt_of_succ_lt_succ hj) (Nat.lt_of_succ_lt_succ hji)
    · rw [if_neg h]
      rcases ih best bs with ⟨hall, heq⟩ | ⟨i, hi, heq, hlt, hmax, hstrict⟩
      · refine Or.inl ⟨?_, heq⟩
        intro p hp
        rcases List.mem_cons.mp hp with hp0 | hp1
        · rw [hp0]
          exact not_lt.mp h
        · exact hall p hp1
      · refine Or.inr ⟨i + 1, Nat.succ_lt_succ hi, heq, hlt, ?_, ?_⟩
        · intro j hj
          cases j with
          | zero => exact le_trans (not_lt.mp h) (le_of_lt hlt)
          | succ j' => exact hmax j' (Nat.lt_of_succ_lt_succ hj)
        · intro j hj hji
          cases j with
          | zero => exact lt_of_le_of_lt (not_lt.mp h) hlt
          | succ j' => exact hstrict j' (Nat.lt_of_succ_lt_succ hj) (Nat.lt_of_succ_lt_succ hji)

/-- C2: `_find_match` visits the full keyword map and returns the accepted
candidate with the single highest per-keyword score; on ties the
earliest-iterated keyword wins (all earlier keywords score strictly less
than the winner); a keyword whose normalized form is a substring of the
normalized name scores 95, and the returned score is then at least 95, so
any lower-scoring fuzzy candidate for a different keyword is overridden;
when no keyword yields an accepted candidate (score 0) the result is
`None`. -/
theorem findMatch_argmax (thr : ℚ) (coinName coinSymbol : Str) (m : List (Str × Trend)) :
    (findMatch thr coinName coinSymbol m = none ↔
      ∀ p ∈ m, candScore thr (cleanForMatching coinName) (lowerStr coinSymbol) p.1 = 0)
    ∧ (∀ t kw s, findMatch thr coinName coinSymbol m = some (t, kw, s) →
        0 < s ∧ ∃ i, ∃ hi : i < m.length, m.get ⟨i, hi⟩ = (kw, t)
          ∧ candScore thr (cleanForMatching coinName) (lowerStr coinSymbol) kw = s
          ∧ (∀ j, ∀ hj : j < m.length,
              candScore thr (cleanForMatching coinName) (lowerStr coinSymbol)
                (m.get ⟨j, hj⟩).1 ≤ s)
          ∧ (∀ j, ∀ hj : j < m.length, j < i →
              candScore thr (cleanForMatching coinName) (lowerStr coinSymbol)
                (m.get ⟨j, hj⟩).1 < s))
    ∧ (∀ p ∈ m, strHas (cleanForMatching p.1) (cleanForMatching coinName) = true →
        candScore thr (cleanForMatching coinName) (lowerStr coinSymbol) p.1 = 95)
    ∧ ((∃ p, p ∈ m ∧ strHas (cleanForMatching p.1) (cleanForMatching coinName) = true) →
        ∃ t kw s, findMatch thr coinName coinSymbol m = some (t, kw, s) ∧ 95 ≤ s) := by
  set n := cleanForMatching coinName
  set sym := lowerStr coinSymbol
  have hsub : ∀ p : Str × Trend, strHas (cleanForMatching p.1) n = true →
      candScore thr n sym p.1 = 95 := by
    intro p hp
    unfold candScore
    rw [if_pos (by rw [hp, Bool.true_or])]
  have hmain :
      (findMatch thr coinName coinSymbol m = none ↔ ∀ p ∈ m, candScore thr n sym p.1 = 0)
      ∧ (∀ t kw s, findMatch thr coinName coinSymbol m = some (t, kw, s) →
          0 < s ∧ ∃ i, ∃ hi : i < m.length, m.get ⟨i, hi⟩ = (kw, t)
            ∧ candScore thr n sym kw = s
            ∧ (∀ j, ∀ hj : j < m.length, candScore thr n sym (m.get ⟨j, hj⟩).1 ≤ s)
            ∧ (∀ j, ∀ hj : j < m.length, j < i →
                candScore thr n sym (m.get ⟨j, hj⟩).1 < s)) := by
    cases m with
    | nil =>
      constructor
      · constructor
        · intro _ p hp
          exact absurd hp (List.not_mem_nil p)
        · intro _
          rfl
      · intro t kw s hsome
        exact absurd hsome (by rw [findMatch]; simp)
    | cons q rest =>
      have heval : findMatch thr coinName coinSymbol (q :: rest)
          = selectBest thr n sym (q :: rest) none 0 := by
        rw [findMatch]
        simp only [List.isEmpty_cons, Bool.false_eq_true, if_false]
        exact findMatchAux_eq_selectBest thr n sym (q :: rest) none 0 (le_refl 0)
      rcases selectBest_char thr n sym (q :: rest) none 0 with
        ⟨hall, heq⟩ | ⟨i, hi, heq, hlt, hmax, hstrict⟩
      · constructor
        · constructor
          · intro _ p hp
            exact le_antisymm (hall p hp) (candScore_nonneg thr n sym p.1)
          · intro _
            rw [heval, heq]
        · intro t kw s hsome
          rw [heval, heq] at hsome
          exact absurd hsome (by simp)
      · constructor
        · constructor
          · intro hnone
            rw [heval, heq] at hnone
            exact absurd hnone (by simp)
          · intro hzero
            have := hzero _ (List.get_mem (q :: rest) i hi)
            rw [this] at hlt
            exact absurd hlt (by norm_num)
        · intro t kw s hsome
          rw [heval, heq] at hsome
          have h1 : ((q :: rest).get ⟨i, hi⟩).2 = t := (Prod.mk.injEq _ _ _ _).mp
            (Option.some.injEq _ _ ▸ hsome : _ = (t, kw, s)) |>.1
          have h2 : ((q :: rest).get ⟨i, hi⟩).1 = kw := by
            have := Option.some.inj hsome
            exact (congrArg (fun x => x.2.1) this)
          have h3 : candScore thr n sym ((q :: rest).get ⟨i, hi⟩).1 = s := by
            have := Option.some.inj hsome
            exact (congrArg (fun x => x.2.2) this)
          refine ⟨by rw [← h3]; exact hlt, i, hi, ?_, by rw [← h2]; exact h3, ?_, ?_⟩
          · rw [Prod.ext_iff]
            exact ⟨h2, h1⟩
          · intro j hj
            rw [← h3]
            exact hmax j hj
          · intro j hj hji
            rw [← h3]
            exact hstrict j hj hji
  refine ⟨hmain.1, hmain.2, ?_, ?_⟩
  · intro p hp hsubp
    exact hsub p hsubp
  · intro ⟨p, hp, hsubp⟩
    cases hres : findMatch thr coinName coinSymbol m with
    | none =>
      have := (hmain.1.mp hres) p hp
      rw [hsub p hsubp] at this
      exact absurd this (by norm_num)
    | some r =>
      obtain ⟨t, kw, s⟩ := r
      obtain ⟨-, i, hi, -, -, hmax, -⟩ := hmain.2 t kw s hres
      obtain ⟨j, hjp⟩ := List.mem_iff_get.mp hp
      refine ⟨t, kw, s, rfl, ?_⟩
      have h95 := hmax j.1 j.2
      rw [Fin.eta] at h95
      rw [hjp, hsub p hsubp] at h95
      exact h95

/-- Witness: against the map {"vibe coding" → trend1, "dog" → trend2}, the
entity "vibe coding dog" (which contains a tracked keyword as a literal
substring) yields a match whose score is at least 95. -/
theorem findMatch_argmax_witness :
    ∃ t kw s, findMatch 60 "vibe coding dog".toList "VIBE".toList demoMap = some (t, kw, s)
      ∧ 95 ≤ s :=
  (findMatch_argmax 60 "vibe coding dog".toList "VIBE".toList demoMap).2.2.2
    ⟨("vibe coding".toList, demoTrend1), by decide, by decide⟩

/-- C1 (amended): one iteration of `_find_match`'s loop assigns the
keyword's candidate by: (a) substring → 95 and (b) symbol-exact → 90 as
first-applicable short-circuiting rules, but otherwise BOTH the token-sort
rule (accepted at `thr`) and the partial-ratio rule (accepted at
`thr + 10`) are evaluated and the keyword offers the best accepted value
(`ruleCandidate`); the running best is replaced exactly when that candidate
strictly exceeds it. -/
theorem findMatch_rule_scores (thr : ℚ) (n sym kw : Str) (t : Trend)
    (rest : List (Str × Trend)) (best : Option (Trend × Str × ℚ)) (bs : ℚ) (hbs : 0 ≤ bs) :
    findMatchAux thr n sym ((kw, t) :: rest) best bs =
      match ruleCandidate thr n sym kw with
      | some c => if bs < c then findMatchAux thr n sym rest (some (t, kw, c)) c
                  else findMatchAux thr n sym rest best bs
      | none => findMatchAux thr n sym rest best bs := by
  rw [findMatchAux_cons thr n sym kw t rest best bs hbs]
  unfold candScore ruleCandidate
  dsimp only
  by_cases h1 : (strHas (cleanForMatching kw) n || strHas n (cleanForMatching kw)) = true
  · simp only [h1, if_pos]
  · simp only [h1, if_neg, Bool.false_eq_true, if_false]
    by_cases h2 : cleanForMatching kw = sym
    · simp only [h2, if_pos]
    · simp only [h2, if_neg, if_false]
      have h3 : 0 ≤ tokenSortRatio (cleanForMatching kw) n := tokenSortRatio_nonneg _ _
      have h4 : 0 ≤ partialRatio (cleanForMatching kw) n := partialRatio_nonneg _ _
      by_cases hc3 : thr ≤ tokenSortRatio (cleanForMatching kw) n
      · by_cases hc4 : thr + 10 ≤ partialRatio (cleanForMatching kw) n
        · rw [if_pos hc3, if_pos hc3, if_pos hc4, if_pos hc4]
          rfl
        · rw [if_pos hc3, if_pos hc3, if_neg hc4, if_neg hc4, max_eq_left h3]
          rfl
      · by_cases hc4 : thr + 10 ≤ partialRatio (cleanForMatching kw) n
        · rw [if_neg hc3, if_neg hc3, if_pos hc4, if_pos hc4, max_eq_right h4]
          rfl
        · rw [if_neg hc3, if_neg hc3, if_neg hc4, if_neg hc4, max_self,
            if_neg (not_lt.mpr hbs)]
          rfl

/-- Witness: processing the single substring-matching keyword
"vibe coding" against entity name "vibe coding cat" from an empty running
best yields the 95-candidate. -/
theorem findMatch_rule_scores_witness :
    findMatchAux 60 (cleanForMatching "vibe coding cat".toList) (lowerStr "VIBE".toList)
      [("vibe coding".toList, demoTrend1)] none 0
      = some (demoTrend1, "vibe coding".toList, 95) := by
  rw [findMatch_rule_scores 60 (cleanForMatching "vibe coding cat".toList)
    (lowerStr "VIBE".toList) "vibe coding".toList demoTrend1 [] none 0 (le_refl 0)]
  rw [(by decide : ruleCandidate 60 (cleanForMatching "vibe coding cat".toList)
    (lowerStr "VIBE".toList) "vibe coding".toList = some 95)]
  dsimp only
  rw [if_pos (by norm_num : (0 : ℚ) < 95)]
  rfl

/-- C1 (counterexample): the claim says rule (d) applies ONLY when rule (c)
did not, so for keyword "abcxde" against entity name "zzzabcde" (threshold
60) the keyword's score should be the token-sort value 500/7 ≈ 71.4, which
clears the threshold. The code, however, also evaluates the partial-ratio
rule and lets its higher accepted value win: `_find_match` returns the
keyword with score 1000/11 ≈ 90.9, not 500/7. -/
theorem findMatch_rule_priority_cex :
    ruleCandidateFirst 60 (cleanForMatching "zzzabcde".toList) (lowerStr [])
        "abcxde".toList = some (500 / 7)
    ∧ findMatch 60 "zzzabcde".toList [] [("abcxde".toList, demoTrendX)]
        = some (demoTrendX, "abcxde".toList, 1000 / 11)
    ∧ (500 / 7 : ℚ) ≠ 1000 / 11 := by
  have hm7 : (mkRat 500 7 : ℚ) = 500 / 7 := by
    rw [Rat.mkRat_eq_div]
    norm_num
  have hm11 : (mkRat 1000 11 : ℚ) = 1000 / 11 := by
    rw [Rat.mkRat_eq_div]
    norm_num
  have hcand : candScore 60 (cleanForMatching "zzzabcde".toList) (lowerStr [])
      "abcxde".toList = mkRat 1000 11 := by
    unfold candScore
    dsimp only
    rw [if_neg (by decide), if_neg (by decide),
      (by decide : tokenSortRatio (cleanForMatching "abcxde".toList)
        (cleanForMatching "zzzabcde".toList) = mkRat 500 7),
      (by decide : partialRatio (cleanForMatching "abcxde".toList)
        (cleanForMatching "zzzabcde".toList) = mkRat 1000 11),
      (by norm_num : (60 : ℚ) + 10 = 70)]
    rw [if_pos (by decide : (60 : ℚ) ≤ mkRat 500 7),
      if_pos (by decide : (70 : ℚ) ≤ mkRat 1000 11)]
    decide
  refine ⟨?_, ?_, by norm_num⟩
  · rw [← hm7]
    decide
  · rw [← hm11]
    have hstep : findMatch 60 "zzzabcde".toList [] [("abcxde".toList, demoTrendX)]
        = findMatchAux 60 (cleanForMatching "zzzabcde".toList) (lowerStr [])
            [("abcxde".toList, demoTrendX)] none 0 := rfl
    rw [hstep, findMatchAux_cons 60 (cleanForMatching "zzzabcde".toList) (lowerStr [])
      "abcxde".toList demoTrendX [] none 0 (le_refl 0), hcand]
    rw [if_pos (by decide : (0 : ℚ) < mkRat 1000 11)]
    rfl

/-- C3 (amended): in each poll iteration, an entity whose address is
already in the in-memory seen-set is skipped entirely (no re-matching, no
store writes); an entity not yet seen has its address added to the
seen-set UNCONDITIONALLY, before the match outcome is known; the match
algorithm then runs, and the store is written through `record_match`
exactly when a match was found. Consequently every processed address ends
up in the seen-set — matching or not — so a non-matching entity is NOT
re-matched in later polls. -/
theorem processEntity_spec (thr : ℚ) (m : List (Str × Trend)) (now : Nat)
    (st : EngineState) (e : Entity) :
    (e.address ∈ st.seen → processEntity thr m now st e = st)
    ∧ (e.address ∉ st.seen →
        (processEntity thr m now st e).seen = e.address :: st.seen
        ∧ (findMatch thr e.name e.symbol m = none →
            (processEntity thr m now st e).db = st.db)
        ∧ (∀ t kw s, findMatch thr e.name e.symbol m = some (t, kw, s) →
            (processEntity thr m now st e).db
              = (recordMatch st.db t.id e.name (some e.address) (some kw) now).2)) := by
  constructor
  · intro hmem
    unfold processEntity
    rw [if_pos hmem]
  · intro hmem
    refine ⟨?_, ?_, ?_⟩
    · unfold processEntity
      rw [if_neg hmem]
      cases hres : findMatch thr e.name e.symbol m with
      | none => rfl
      | some r =>
        obtain ⟨t, kw, s⟩ := r
        rfl
    · intro hres
      unfold processEntity
      rw [if_neg hmem, hres]
    · intro t kw s hres
      unfold processEntity
      rw [if_neg hmem, hres]

/-- Witness: from the initial engine state, an already-seen address is
skipped unchanged, and a fresh entity whose name contains the tracked
keyword is marked seen and recorded. -/
theorem processEntity_spec_witness :
    processEntity 60 demoMap 3 ⟨["a1".toList], ⟨[demoTrend1], []⟩⟩
        ⟨"x".toList, [], "a1".toList⟩
      = ⟨["a1".toList], ⟨[demoTrend1], []⟩⟩
    ∧ (processEntity 60 demoMap 3 ⟨[], ⟨[demoTrend1], []⟩⟩
        ⟨"vibe coding dog".toList, [], "a2".toList⟩).seen = ["a2".toList] := by
  constructor
  · exact (processEntity_spec 60 demoMap 3 ⟨["a1".toList], ⟨[demoTrend1], []⟩⟩
      ⟨"x".toList, [], "a1".toList⟩).1 (by decide)
  · exact ((processEntity_spec 60 demoMap 3 ⟨[], ⟨[demoTrend1], []⟩⟩
      ⟨"vibe coding dog".toList, [], "a2".toList⟩).2 (by decide)).1

/-- C3 (counterexample): the claim says an entity is added to the seen-set
only UPON A MATCH, so that every address in the seen-set is one for which
a match was found and a non-matching entity stays eligible. But after one
poll from the initial state over a feed with one entity and an empty
keyword map (so nothing can match), the address IS in the seen-set while
no match was ever recorded — the code marks entities seen before matching,
so a non-matching entity is never re-matched. -/
theorem seenSet_nonmatch_cex :
    ("addr1".toList ∈ nonMatchingPollDemo.seen)
    ∧ nonMatchingPollDemo.db.matchedCoins = []
    ∧ nonMatchingPollDemo.db = ⟨[], []⟩ := by
  refine ⟨by decide, by decide, by decide⟩

theorem addToGroups_keys (n : Str) (c : Coin) :
    ∀ g : List (Str × List Coin), (addToGroups n c g).map Prod.fst
      = if n ∈ g.map Prod.fst then g.map Prod.fst else g.map Prod.fst ++ [n] := by
  intro g
  induction g with
  | nil => simp [addToGroups]
  | cons p rest ih =>
    obtain ⟨k, cs⟩ := p
    by_cases hk : k = n
    · subst hk
      simp [addToGroups]
    · simp only [addToGroups, if_neg hk, List.map_cons, ih]
      by_cases hmem : n ∈ rest.map Prod.fst
      · simp [hmem, Ne.symm hk]
      · simp [hmem, Ne.symm hk]

theorem groupBy_keys_nodup_aux :
    ∀ (coins : List Coin) (g : List (Str × List Coin)), (g.map Prod.fst).Nodup →
      ((coins.foldl (fun g c => addToGroups c.narrative c g) g).map Prod.fst).Nodup := by
  intro coins
  induction coins with
  | nil => intro g h; exact h
  | cons c rest ih =>
    intro g h
    rw [List.foldl_cons]
    refine ih _ ?_
    rw [addToGroups_keys]
    by_cases hmem : c.narrative ∈ g.map Prod.fst
    · rw [if_pos hmem]
      exact h
    · rw [if_neg hmem, List.nodup_append]
      exact ⟨h, List.nodup_singleton _, by simpa [List.disjoint_singleton] using hmem⟩

theorem groupBy_keys_nodup (coins : List Coin) :
    ((groupByNarrative coins).map Prod.fst).Nodup :=
  groupBy_keys_nodup_aux coins [] List.nodup_nil

theorem assoc_val_unique {α : Type} :
    ∀ (l : List (Str × α)) (k : Str) (a b : α),
      (l.map Prod.fst).Nodup → (k, a) ∈ l → (k, b) ∈ l → a = b := by
  intro l
  induction l with
  | nil => intro k a b _ ha; cases ha
  | cons p rest ih =>
    intro k a b hnd ha hb
    obtain ⟨k0, v0⟩ := p
    rw [List.map_cons, List.nodup_cons] at hnd
    rcases List.mem_cons.mp ha with h1 | h1 <;> rcases List.mem_cons.mp hb with h2 | h2
    · have ha2 : a = v0 := congrArg Prod.snd h1
      have hb2 : b = v0 := congrArg Prod.snd h2
      rw [ha2, hb2]
    · exfalso
      have hk : k = k0 := congrArg Prod.fst h1
      have hm : k ∈ rest.map Prod.fst := List.mem_map_of_mem Prod.fst h2
      rw [hk] at hm
      exact hnd.1 hm
    · exfalso
      have hk : k = k0 := congrArg Prod.fst h2
      have hm : k ∈ rest.map Prod.fst := List.mem_map_of_mem Prod.fst h1
      rw [hk] at hm
      exact hnd.1 hm
    · exact ih k a b hnd.2 h1 h2

theorem computeMeta_mem (coins : List Coin) (narr : Str) (cs : List Coin)
    (h : (narr, cs) ∈ groupByNarrative coins) (hne : narrativeMcaps cs ≠ []) :
    (narr, mkAnalysis cs) ∈ computeMeta coins := by
  unfold computeMeta
  refine List.mem_filterMap.mpr ⟨(narr, cs), h, ?_⟩
  rw [if_neg (by simpa [List.isEmpty_iff] using hne)]

theorem computeMeta_not_mem (coins : List Coin) (narr : Str) (cs : List Coin)
    (h : (narr, cs) ∈ groupByNarrative coins) (hempty : narrativeMcaps cs = []) :
    ∀ a, (narr, a) ∉ computeMeta coins := by
  intro a hmem
  unfold computeMeta at hmem
  obtain ⟨⟨narr', cs'⟩, hmem', heq⟩ := List.mem_filterMap.mp hmem
  by_cases hc : (narrativeMcaps cs').isEmpty = true
  · rw [if_pos hc] at heq
    cases heq
  · rw [if_neg hc] at heq
    have hpair := Option.some.inj heq
    have h1 : narr' = narr := congrArg Prod.fst hpair
    subst h1
    have h2 : cs' = cs :=
      assoc_val_unique (groupByNarrative coins) narr' cs' cs (groupBy_keys_nodup coins) hmem' h
    rw [h2, hempty] at hc
    exact hc rfl

/-- C9: for every narrative group whose positive-mcap subset is nonempty,
the recomputed `median_peak_mcap` — and hence the formatted suggested
ceiling — is the element at index `floor(n/2)` of ANY ascending-sorted
arrangement of that subset (for even n the upper-middle element, not the
average of the two middle ones). -/
theorem median_upper_middle (coins : List Coin) (narr : Str) (cs : List Coin)
    (hmem : (narr, cs) ∈ groupByNarrative coins) (l : List ℚ)
    (hperm : l.Perm (narrativeMcaps cs)) (hsort : l.Sorted (· ≤ ·))
    (hne : narrativeMcaps cs ≠ []) :
    ∃ a, (narr, a) ∈ computeMeta coins
      ∧ a.medianPeakMcap = l.getD ((narrativeMcaps cs).length / 2) 0
      ∧ a.suggestedCeiling = formatMcap (l.getD ((narrativeMcaps cs).length / 2) 0) := by
  have hl : l = List.insertionSort (fun a b : ℚ => a ≤ b) (narrativeMcaps cs) := by
    refine List.eq_of_perm_of_sorted ?_ hsort (List.sorted_insertionSort _ _)
    exact hperm.trans (List.perm_insertionSort _ _).symm
  refine ⟨mkAnalysis cs, computeMeta_mem coins narr cs hmem hne, ?_, ?_⟩
  · show (List.insertionSort (fun a b : ℚ => a ≤ b) (narrativeMcaps cs)).getD
      ((narrativeMcaps cs).length / 2) 0 = _
    rw [← hl]
  · show formatMcap ((List.insertionSort (fun a b : ℚ => a ≤ b) (narrativeMcaps cs)).getD
      ((narrativeMcaps cs).length / 2) 0) = _
    rw [← hl]

/-- Witness: the numeric-valid sample [100, 200, 300, 400] (one narrative,
four records) yields median 300 — the upper-middle element, not 250 — and
suggested ceiling "$300". -/
theorem median_upper_middle_witness :
    ∃ a, ("x".toList, a) ∈ computeMeta demoCoins
      ∧ a.medianPeakMcap = 300 ∧ a.medianPeakMcap ≠ 250
      ∧ a.suggestedCeiling = "$300".toList := by
  obtain ⟨a, hmem, hmed, hceil⟩ := median_upper_middle demoCoins "x".toList demoCoins
    (by decide) [100, 200, 300, 400] (by decide) (by decide) (by decide)
  refine ⟨a, hmem, ?_, ?_, ?_⟩
  · rw [hmed]
    decide
  · rw [hmed]
    decide
  · rw [hceil]
    decide

/-- C10 (amended): the meta-analysis cache is always the full recompute of
the stored records (add_coin recomputes unconditionally; delete_coin
recomputes when it removed something and otherwise leaves the consistent
state unchanged), and it contains an entry exactly for every narrative
that has at least one record with parseable positive peak mcap — a
narrative all of whose records are unparseable gets NO entry. For a
narrative with an entry: `count` counts ALL records of the group,
unparseable included; avg/min/max/median are over the positive-mcap subset
only; the time-to-peak average is over the positive-hours subset, and 0
with hold time "unknown" when that subset is empty. -/
theorem computeMeta_spec :
    (∀ coins narr cs, (narr, cs) ∈ groupByNarrative coins →
      (narrativeMcaps cs = [] → ∀ a, (narr, a) ∉ computeMeta coins)
      ∧ (narrativeMcaps cs ≠ [] →
          (narr, mkAnalysis cs) ∈ computeMeta coins
          ∧ (mkAnalysis cs).count = cs.length
          ∧ (mkAnalysis cs).avgPeakMcap = sumList (narrativeMcaps cs) / (narrativeMcaps cs).length
          ∧ (mkAnalysis cs).minPeakMcap = listMin (narrativeMcaps cs)
          ∧ (mkAnalysis cs).maxPeakMcap = listMax (narrativeMcaps cs)
          ∧ (narrativeTimes cs = [] → (mkAnalysis cs).avgTimeToPeakHours = 0
              ∧ (mkAnalysis cs).suggestedHoldTime = "unknown".toList)
          ∧ (narrativeTimes cs ≠ [] → (mkAnalysis cs).avgTimeToPeakHours
              = sumList (narrativeTimes cs) / (narrativeTimes cs).length)))
    ∧ (∀ st name narrative pm tp notes addr em xm now,
        (addCoin st name narrative pm tp notes addr em xm now).2.metaAnalysis
          = computeMeta (addCoin st name narrative pm tp notes addr em xm now).2.coins)
    ∧ (∀ st cid, st.metaAnalysis = computeMeta st.coins →
        (deleteCoin st cid).2.metaAnalysis = computeMeta (deleteCoin st cid).2.coins) := by
  refine ⟨?_, ?_, ?_⟩
  · intro coins narr cs hmem
    constructor
    · intro hempty
      exact computeMeta_not_mem coins narr cs hmem hempty
    · intro hne
      refine ⟨computeMeta_mem coins narr cs hmem hne, rfl, rfl, rfl, rfl, ?_, ?_⟩
      · intro hte
        constructor
        · show (if (narrativeTimes cs).isEmpty then (0 : ℚ) else _) = 0
          rw [if_pos (by simpa [List.isEmpty_iff] using hte)]
        · show (if (narrativeTimes cs).isEmpty then "unknown".toList else _) = _
          rw [if_pos (by simpa [List.isEmpty_iff] using hte)]
      · intro hte
        show (if (narrativeTimes cs).isEmpty then (0 : ℚ) else _) = _
        rw [if_neg (by simpa [List.isEmpty_iff] using hte)]
  · intro st name narrative pm tp notes addr em xm now
    rfl
  · intro st cid hinv
    unfold deleteCoin
    dsimp only
    split
    · rfl
    · exact hinv

/-- Witness: in the four-record demo narrative every record has a positive
mcap, so the narrative has an entry whose count is 4; and both mutators
leave the cache equal to the full recompute of the stored records. -/
theorem computeMeta_spec_witness :
    (("x".toList, mkAnalysis demoCoins) ∈ computeMeta demoCoins
      ∧ (mkAnalysis demoCoins).count = 4)
    ∧ (deleteCoin ⟨demoCoins, computeMeta demoCoins⟩ 99).2.metaAnalysis
        = computeMeta (deleteCoin ⟨demoCoins, computeMeta demoCoins⟩ 99).2.coins := by
  constructor
  · obtain ⟨hmem, hcount, -⟩ :=
      ((computeMeta_spec.1 demoCoins "x".toList demoCoins (by decide)).2 (by decide))
    exact ⟨hmem, hcount⟩
  · exact computeMeta_spec.2.2 ⟨demoCoins, computeMeta demoCoins⟩ 99 rfl

theorem computeMeta_single (c : Coin) (h : c.peakMcapNumeric ≤ 0) : computeMeta [c] = [] := by
  have hm : narrativeMcaps [c] = [] := by
    unfold narrativeMcaps
    simp [List.filter_cons, decide_eq_false (not_lt.mpr h)]
  show ([(c.narrative, [c])].filterMap
    (fun p => if (narrativeMcaps p.2).isEmpty then none else some (p.1, mkAnalysis p.2))) = []
  rw [List.filterMap_cons]
  simp [hm]

/-- C10 (counterexample): after `add_coin` of a single record whose peak
mcap "abc" is unparseable (numeric 0.0), the narrative "x" has one coin
record but the recomputed meta-analysis is EMPTY — the `if mcaps:` guard
skips any narrative with no positive parsed mcap, so the cache does not
contain one entry per narrative with at least one record. -/
theorem metaAnalysis_missing_cex :
    perfUnparsableDemo.coins.length = 1
    ∧ perfUnparsableDemo.coins.map Coin.narrative = ["x".toList]
    ∧ perfUnparsableDemo.metaAnalysis = [] := by
  have hpm : parseMcap "abc".toList = 0 := by
    unfold parseMcap
    dsimp only
    rw [(by decide : mcapNorm "abc".toList = ['A', 'B', 'C']),
      (by decide : mcapMultipliers.find? (fun p => (['A', 'B', 'C'] : Str).contains p.1)
        = some ('B', 1000000000))]
    dsimp only
    rw [(by decide : List.filter (fun c => c ≠ 'B') ['A', 'B', 'C'] = ['A', 'C']),
      (by decide : parseFloat? ['A', 'C'] = none)]
    norm_num
  refine ⟨rfl, by decide, ?_⟩
  exact computeMeta_single _ (le_of_eq hpm)
